import Mathlib

/-!
# Verification of DenseMatrix.js against its specification

A shallow embedding of the DenseMatrix.js tensor library (src/DenseMatrix.ts,
src/norm.ts, src/utils/array.ts, src/utils/object.ts, src/error/*) in Lean 4,
together with theorems settling the frozen claims about the library.

JavaScript numbers are modelled by the rationals: every concrete computation
appearing in the claims stays inside small integers, where IEEE doubles are
exact. Thrown errors are modelled by an explicit error type threaded through
Except. Mutation of a matrix in place is modelled by returning the post-call
state explicitly where a claim depends on it.
-/

set_option autoImplicit false

namespace DMjs

/-- JavaScript numbers, modelled exactly as rationals (all values occurring in
the claims are small integers, exact in IEEE doubles). -/
abbrev Num := ℚ

/-- A nested JavaScript array with scalars of type α at the leaves: the
MultidimArray type of src/utils/array.ts. -/
inductive Nest (α : Type) where
  | scalar (v : α)
  | arr (elems : List (Nest α))

/-- The error taxonomy of src/error/: DimensionError (actual, expected,
relation), IndexError, TypeError, ArithmeticError (missing capability),
NotImplementedError, InternalError, and a plain Error. -/
inductive JsErr where
  | dimension (actual : Num) (expected : Num) (relation : String)
  | indexErr (idx : Int) (bound : Num)
  | typeError (msg : String)
  | arithmetic (expectedArithmetic : String)
  | notImplemented (what : String)
  | internal (msg : String)
  | plainError (msg : String)
deriving Repr, DecidableEq

/-- The scalar-algebra capability record of the @m93a/arithmetic-types
interface, as consumed by the library: the capability flags the code reads
(symbols.DivisionRing, symbols.NormedDivisionRing, symbols.Real) and the
operations the embedded functions invoke. Exponents are JavaScript numbers.
The field posInfinity models fromNumber(Number.POSITIVE_INFINITY), which has
no exact rational image. -/
structure Arith (α : Type) where
  divisionRing : Bool
  normedDivisionRing : Bool
  real : Bool
  zero : α
  add : α → α → α
  sub : α → α → α
  neg : α → α
  mul : α → α → α
  div : α → α → α
  pow : α → Num → α
  norm : α → α
  gt : α → α → Bool
  lt : α → α → Bool
  fromNumber : Num → α
  posInfinity : α

/-- Modelled from the spec: NumberArithmetics (src/utils/numberArithmetic,
absent from src/) is the built-in numeric algebra implementing all four
capabilities, with norm the absolute value, gt and lt the numeric order,
zero the additive identity and fromNumber the identity on numbers. Math.pow
with a fractional exponent is irrational in general and is not representable
in ℚ; integer exponents (the only ones a claim could exercise) are exact,
fractional ones map to 0 and are exercised by no theorem below. IEEE
+Infinity is likewise not representable; posInfinity is a sentinel that no
theorem evaluates. -/
def NumberArithmetics : Arith Num where
  divisionRing := true
  normedDivisionRing := true
  real := true
  zero := 0
  add := (· + ·)
  sub := (· - ·)
  neg := (- ·)
  mul := (· * ·)
  div := (· / ·)
  pow := fun x q =>
    if q.den = 1 then
      if 0 ≤ q.num then x ^ q.num.toNat else (x ^ (-q.num).toNat)⁻¹
    else 0
  norm := fun x => |x|
  gt := fun a b => decide (b < a)
  lt := fun a b => decide (a < b)
  fromNumber := id
  posInfinity := 0

/-- The probe `typeof el === 'number' ? NumberArithmetics : el[symbols.Arithmetics]`
of the constructor, for tensors of plain numbers: every ℚ leaf is a number,
so the probe always resolves the built-in numeric algebra. -/
def numberResolve : Num → Arith Num := fun _ => NumberArithmetics

/-- The DenseMatrix instance state: the private fields #data, #size and
#datatype, and the scalarArithmetics resolved at construction. Sizes are
JavaScript numbers, since a failed resize can store non-natural values. -/
structure DM (α : Type) where
  data : List (Nest α)
  sizes : List Num
  scalarArithmetics : Arith α
  datatype : Option String := none

/-- arraySize of src/utils/array.ts on a nested value: walk the first element
at each nesting level, recording lengths, until a non-array is reached. -/
def nestSize {α : Type} : Nest α → List Num
  | .scalar _ => []
  | .arr [] => [(0 : Num)]
  | .arr (x :: xs) => ((x :: xs).length : Num) :: nestSize x

/-- arraySize applied to the top-level backing array. -/
def arraySizeL {α : Type} (d : List (Nest α)) : List Num :=
  nestSize (.arr d)

mutual
/-- preprocess of src/DenseMatrix.ts walks the nested input replacing every
embedded DenseMatrix by its raw backing array; the Nest type cannot embed a
matrix, so on plain nested arrays the walk returns the structure unchanged. -/
def preprocessN {α : Type} : Nest α → Nest α
  | .scalar v => .scalar v
  | .arr l => .arr (preprocessL l)

def preprocessL {α : Type} : List (Nest α) → List (Nest α)
  | [] => []
  | x :: xs => preprocessN x :: preprocessL xs
end

/-- The first leaf of the constructor probe: `let el = data[0]; while
(Array.isArray(el)) el = el[0]`. Returns none when the walk falls off an
empty array (JavaScript: el becomes undefined). -/
def firstLeafN {α : Type} : Nest α → Option α
  | .scalar v => some v
  | .arr [] => none
  | .arr (x :: _) => firstLeafN x

/-- The first leaf of a top-level backing array. -/
def firstLeafL {α : Type} (d : List (Nest α)) : Option α :=
  firstLeafN (.arr d)

/-- The nested-array branch of the DenseMatrix constructor: preprocess the
data, record arraySize as the shape, then probe the first leaf for the
scalar algebra. When the first leaf chain ends in no scalar the probe
dereferences undefined and the constructor throws a TypeError; `resolve`
models the probe result on an actual leaf (NumberArithmetics for plain
numbers, the object's own declared algebra otherwise). -/
def constructArr {α : Type} (resolve : α → Arith α) (d : List (Nest α)) :
    Except JsErr (DM α) :=
  let data := preprocessL d
  match firstLeafL data with
  | none => .error (.typeError "Cannot read properties of undefined")
  | some el => .ok { data := data, sizes := arraySizeL data, scalarArithmetics := resolve el }

/-- The DenseMatrix constructor on a plain nested array of numbers. -/
def constructNum (d : List (Nest Num)) : Except JsErr (DM Num) :=
  constructArr numberResolve d

/-- validateIndex of src/utils/array.ts: an index must be an integer (holds
by the Int type of the model) and, against a bound, non-negative and
strictly below it; otherwise an IndexError. -/
def validateIndex (index : Int) (length : Num) : Except JsErr Unit :=
  if index < 0 ∨ length ≤ (index : Num) then .error (.indexErr index length) else .ok ()

/-- The navigation loop of DenseMatrix.get: one nesting level per index
component, validating each component against the length of the array it
indexes; a non-array where an array is expected (or the converse at the
end) is an InternalError. The in-bounds lookup cannot miss after
validateIndex; the defensive fallback arm reuses the internal condition. -/
def getWalk {α : Type} : Nest α → List Int → Except JsErr α
  | .arr _, [] => .error (.internal "Expected scalar.")
  | .scalar v, [] => .ok v
  | .scalar _, _ :: _ => .error (.internal "Expected array.")
  | .arr l, i :: rest => do
      let _ ← validateIndex i (l.length : Num)
      match l.get? i.toNat with
      | some child => getWalk child rest
      | none => .error (.internal "Expected array.")

/-- The index-checking loop of DenseMatrix.get: validate each component
against the corresponding stored size entry, in order. -/
def checkIndices : List (Int × Num) → Except JsErr Unit
  | [] => .ok ()
  | p :: ps => do
      let _ ← validateIndex p.1 p.2
      checkIndices ps

/-- DenseMatrix.get: the index must be an array (by typing) of length equal
to the rank; each component is validated against the stored size, then the
nested structure is walked one level per component. -/
def getDM {α : Type} (m : DM α) (index : List Int) : Except JsErr α :=
  if index.length ≠ m.sizes.length then
    .error (.dimension (index.length : Num) (m.sizes.length : Num) "!=")
  else do
    let _ ← checkIndices (index.zip m.sizes)
    getWalk (.arr m.data) index

/-- Modelled from the spec: retrieveTopArrayByIndex (src/utils/tensor, absent
from src/) walks the nested structure one level per index component and
returns the array holding the terminal slot; DenseMatrix.set then writes
the value at the last component. The functional model performs the walk and
the write together, leaving the data unchanged when the walk leaves the
structure (claims exercise only valid indices). -/
def setPath {α : Type} : List (Nest α) → List Int → α → List (Nest α)
  | d, [], _ => d
  | d, [i], v =>
      if 0 ≤ i then d.set i.toNat (.scalar v) else d
  | d, i :: rest@(_ :: _), v =>
      if 0 ≤ i then
        match d.get? i.toNat with
        | some (.arr l) => d.set i.toNat (.arr (setPath l rest v))
        | _ => d
      else d

/-- DenseMatrix.set: the index must be an array (by typing) of length at
least the rank; the value is written at the terminal slot reached through
retrieveTopArrayByIndex. Components are not validated. Returns the mutated
matrix (JavaScript returns this). -/
def setDM {α : Type} (m : DM α) (index : List Int) (v : α) : Except JsErr (DM α) :=
  if index.length < m.sizes.length then
    .error (.dimension index.length m.sizes.length "<")
  else
    .ok { m with data := setPath m.data index v }

mutual
/-- The homogeneity invariant: a nested value matches a size list exactly
(the predicate that validate of src/utils/array.ts checks, used as a
well-formedness hypothesis). -/
def wfN {α : Type} : Nest α → List Num → Bool
  | .scalar _, [] => true
  | .arr l, q :: rest => decide ((l.length : Num) = q) && wfL l rest
  | _, _ => false

def wfL {α : Type} : List (Nest α) → List Num → Bool
  | [], _ => true
  | x :: xs, sz => wfN x sz && wfL xs sz
end

/-- A DenseMatrix is well formed when its stored sizes exactly describe its
backing data. -/
def wfDM {α : Type} (m : DM α) : Bool :=
  wfN (.arr m.data) m.sizes

mutual
/-- _validate of src/utils/array.ts on one dimension: the length must equal
size[dim]; below the last dimension every child must be an array and is
validated recursively; at the last dimension no child may be an array. -/
def validateAux {α : Type} (l : List (Nest α)) (size : List Num) (dim : Nat) :
    Except JsErr Unit :=
  if (l.length : Num) ≠ size.getD dim 0 then
    .error (.dimension (l.length : Num) (size.getD dim 0) "!=")
  else if dim < size.length - 1 then
    validateChildren l size (dim + 1)
  else
    if l.any (fun x => match x with | .arr _ => true | .scalar _ => false) then
      .error (.dimension ((size.length : Num) + 1) (size.length : Num) ">")
    else .ok ()
termination_by (size.length - dim, sizeOf l, 0)

/-- The child loop of _validate. -/
def validateChildren {α : Type} (l : List (Nest α)) (size : List Num) (dimNext : Nat) :
    Except JsErr Unit :=
  match l with
  | [] => .ok ()
  | x :: xs =>
    match x with
    | .scalar _ => .error (.dimension ((size.length : Num) - 1) (size.length : Num) "<")
    | .arr l2 => do
        let _ ← validateAux l2 size dimNext
        validateChildren xs size dimNext
termination_by (size.length - dimNext, sizeOf l, 1)
end

/-- validate of src/utils/array.ts: the scalar case rejects arrays; the
array case delegates to _validate at dimension 0. -/
def validateArr {α : Type} (array : List (Nest α)) (size : List Num) : Except JsErr Unit :=
  if size.length = 0 then .error (.dimension (array.length : Num) 0 "!=")
  else validateAux array size 0

mutual
/-- The depth-first leaf traversal shared by forEach and the iterator of
DenseMatrix: leaves in outermost-index-first order. -/
def flattenN {α : Type} : Nest α → List α
  | .scalar v => [v]
  | .arr l => flattenL l

def flattenL {α : Type} : List (Nest α) → List α
  | [] => []
  | x :: xs => flattenN x ++ flattenL xs
end

mutual
/-- The recursion of DenseMatrix.map: apply the callback at every leaf,
preserving the nesting structure. -/
def mapNestN {α β : Type} (f : α → β) : Nest α → Nest β
  | .scalar v => .scalar (f v)
  | .arr l => .arr (mapNestL f l)

def mapNestL {α β : Type} (f : α → β) : List (Nest α) → List (Nest β)
  | [] => []
  | x :: xs => mapNestN f x :: mapNestL f xs
end

/-- DenseMatrix.map: rebuild the data through the leaf recursion, then pass
the result to the constructor (which recomputes arraySize and re-probes the
scalar algebra; `resolve` models the probe on the mapped leaves). The
callback of the model takes only the value: every mapped callback in the
claims ignores the index and matrix arguments. -/
def mapDM {α β : Type} (resolve : β → Arith β) (m : DM α) (f : α → β) :
    Except JsErr (DM β) :=
  constructArr resolve (mapNestL f m.data)

/-- DenseMatrix.rows: defined only for rank two; each row is wrapped back
into a 1×N matrix through the constructor. -/
def rowsDM {α : Type} (resolve : α → Arith α) (m : DM α) :
    Except JsErr (List (DM α)) :=
  if m.sizes.length ≠ 2 then
    .error (.typeError "Rows can only be returned for a 2D matrix.")
  else
    m.data.mapM fun row => constructArr resolve [row]

/-- DenseMatrix.columns: defined only for rank two; column i is materialized
as an N×1 matrix by re-reading entry i of every row (data.map(row => [row[i]]));
a non-array row or a missing entry leaves `undefined` in JavaScript, modelled
as an empty slot that the constructor probe then rejects. -/
def columnsDM {α : Type} (resolve : α → Arith α) (m : DM α) :
    Except JsErr (List (DM α)) :=
  if m.sizes.length ≠ 2 then
    .error (.typeError "Rows can only be returned for a 2D matrix.")
  else
    (List.range (m.sizes.getD 1 0).num.toNat).mapM fun i =>
      constructArr resolve (m.data.map fun row =>
        match row with
        | .arr l =>
          match l.get? i with
          | some x => .arr [x]
          | none => .arr []
        | .scalar _ => .arr [])

/-- The norm kind argument p of norm(): a number (with the two IEEE
infinities as separate constructors, since ℚ has none), or one of the
strings accepted by the dispatch. -/
inductive PVal where
  | num (q : Num)
  | posInfF
  | negInfF
  | infS
  | ninfS
  | froS
deriving Repr, DecidableEq

/-- The norm kinds reaching vectorNorm and matrixNorm (their TypeScript
signatures exclude the string fro, which norm() intercepts). -/
inductive PNF where
  | num (q : Num)
  | posInfF
  | negInfF
  | infS
  | ninfS
deriving Repr, DecidableEq

/-- vectorNorm of src/norm.ts: the maximum-magnitude scan for positive
infinity, the minimum-magnitude scan for negative infinity (both starting
from the algebra's zero and replacing only on a strict comparison), and the
L^p accumulation otherwise, with p = 0 short-circuited to the lifted
positive-infinity sentinel. -/
def vectorNorm {α : Type} (v : DM α) (p : PNF) : Except JsErr α :=
  let A := v.scalarArithmetics
  match p with
  | .posInfF | .infS =>
    if A.real ≠ true then .error (.arithmetic "Real")
    else .ok ((flattenL v.data).foldl
      (fun r value => let x := A.norm value; if A.gt x r then x else r) A.zero)
  | .negInfF | .ninfS =>
    if A.real ≠ true then .error (.arithmetic "Real")
    else .ok ((flattenL v.data).foldl
      (fun r value => let x := A.norm value; if A.lt x r then x else r) A.zero)
  | .num q =>
    if A.normedDivisionRing ≠ true then .error (.arithmetic "NormedDivisionRing")
    else if q = 0 then .ok A.posInfinity
    else .ok (A.pow ((flattenL v.data).foldl
      (fun r value => A.add r (A.pow (A.norm value) q)) A.zero) (1 / q))

/-- matrixNorm of src/norm.ts. The column and row branches iterate the
DenseMatrix objects produced by columns() and rows() and call
col.map(A.norm).reduce(A.add): DenseMatrix.map yields another DenseMatrix,
which has no reduce method, so the first loop iteration throws a TypeError
(reduce is not a function) at runtime; with no columns or rows the loop
body never runs and the algebra's zero is returned. The negative-infinity
string is rejected with a TypeError, and every other p falls to the
NotImplementedError of the deferred general L^p matrix norm. -/
def matrixNorm {α : Type} (resolve : α → Arith α) (M : DM α) (p : PNF) :
    Except JsErr α :=
  let A := M.scalarArithmetics
  match p with
  | .num q =>
    if q = 1 then
      if A.real ≠ true then .error (.arithmetic "Real")
      else do
        let cols ← columnsDM resolve M
        match cols with
        | [] => .ok A.zero
        | _ :: _ => .error (.typeError "col.map(...).reduce is not a function")
    else .error (.notImplemented "L^p norm for square matrices")
  | .posInfF | .infS =>
    if A.real ≠ true then .error (.arithmetic "Real")
    else do
      let rws ← rowsDM resolve M
      match rws with
      | [] => .ok A.zero
      | _ :: _ => .error (.typeError "row.map(...).reduce is not a function")
  | .ninfS => .error (.typeError "L^-inf norm is not defined for square matrices")
  | .negInfF => .error (.notImplemented "L^p norm for square matrices")

/-- The rank dispatch of norm of src/norm.ts for the non-Frobenius kinds:
rank one goes to vectorNorm, rank two to matrixNorm, anything else is a
dimension mismatch against the rank-2 ceiling. -/
def normBranch {α : Type} (resolve : α → Arith α) (M : DM α) (pnf : PNF) :
    Except JsErr α :=
  if M.sizes.length = 1 then vectorNorm M pnf
  else if M.sizes.length = 2 then matrixNorm resolve M pnf
  else .error (.dimension (M.sizes.length : Num) 2 ">")

/-- norm of src/norm.ts: the Frobenius accumulation over every leaf when p
is the string fro or missing; otherwise dispatch on the rank recorded in
the size metadata, rejecting ranks other than one and two. -/
def normDM {α : Type} (resolve : α → Arith α) (M : DM α) (p : Option PVal) :
    Except JsErr α :=
  let A := M.scalarArithmetics
  match p with
  | none | some .froS =>
    if A.normedDivisionRing ≠ true then .error (.arithmetic "NormedDivisionRing")
    else .ok (A.pow ((flattenL M.data).foldl
      (fun r value => A.add r (A.pow (A.norm value) 2)) A.zero) (1 / 2))
  | some (.num q) => normBranch resolve M (.num q)
  | some .posInfF => normBranch resolve M .posInfF
  | some .negInfF => normBranch resolve M .negInfF
  | some .infS => normBranch resolve M .infS
  | some .ninfS => normBranch resolve M .ninfS

/-- DenseMatrix.dotDiv: the DivisionRing capability flag is checked before
anything else; only then is every element mapped through the algebra's
division by the scalar operand. -/
def dotDivDM {α : Type} (resolve : α → Arith α) (a : DM α) (b : α) :
    Except JsErr (DM α) :=
  let A := a.scalarArithmetics
  if A.divisionRing ≠ true then .error (.arithmetic "DivisionRing")
  else mapDM resolve a (fun el => A.div el b)

/-- Extract one backing row as a list of scalars, mirroring the unchecked
`this.#data as Scalar[][]` view mul takes of the data; none when the row is
not an array of scalars. -/
def rowScalars {α : Type} : List (Nest α) → Option (List α)
  | [] => some []
  | .scalar v :: xs => (rowScalars xs).map (v :: ·)
  | .arr _ :: _ => none

/-- Extract the rank-2 scalar view of the backing data. -/
def asRows {α : Type} : List (Nest α) → Option (List (List α))
  | [] => some []
  | .arr l :: xs => do
      let r ← rowScalars l
      let rest ← asRows xs
      some (r :: rest)
  | .scalar _ :: _ => none

/-- DenseMatrix.mul: both stored sizes must have rank two; the inner
dimension is read from the first row of the receiver, the result width from
the first row of the operand (before the operand's row count is compared to
the inner dimension), and the product is the standard triple loop over the
receiver's Ring capability. The result goes back through the constructor.
On backing data that is not a rank-2 array of scalars the JavaScript
semantics degenerates to NaN propagation or a TypeError; that corner is
modelled by an internal condition and exercised by no theorem. -/
def mulDM {α : Type} (resolve : α → Arith α) (a b : DM α) : Except JsErr (DM α) :=
  if a.sizes.length ≠ 2 then .error (.dimension (a.sizes.length : Num) 2 "!=")
  else if b.sizes.length ≠ 2 then .error (.dimension (b.sizes.length : Num) 2 "!=")
  else
    let S := a.scalarArithmetics
    match asRows a.data, asRows b.data with
    | some ra, some rb =>
      match ra.head?, rb.head? with
      | some r0, some s0 =>
        let A := ra.length
        let B := r0.length
        let C := s0.length
        if rb.length ≠ B then .error (.dimension (rb.length : Num) (B : Num) "!=")
        else
          let c : List (List α) := (List.range A).map fun i =>
            (List.range C).map fun j =>
              (List.range B).foldl
                (fun r k =>
                  S.add r (S.mul ((ra.getD i []).getD k S.zero)
                                 ((rb.getD k []).getD j S.zero)))
                S.zero
          constructArr resolve (c.map fun row => .arr (row.map .scalar))
      | _, _ => .error (.typeError "Cannot read properties of undefined")
    | _, _ => .error (.internal "modelled: backing data is not a rank-2 array of scalars")

/-- resize of src/utils/array.ts, recursive phase (_resize): dimension by
dimension; below the last dimension existing entries are promoted to arrays
if needed and resized recursively and missing entries are created fresh; at
the last dimension existing entries are stripped of nesting by repeatedly
taking the first element and new entries are filled with the default value.
Stripping an empty array leaves `undefined` in JavaScript; undefined is not
representable in the carrier, so that slot keeps the empty array — the
corner is exercised by no theorem (every claim about resize concerns the
failing path, which never reaches _resize). -/
def unwrapFirst {α : Type} : Nest α → Nest α
  | .scalar v => .scalar v
  | .arr [] => .arr []
  | .arr (x :: _) => unwrapFirst x

/-- The recursive phase of resize (_resize of src/utils/array.ts). -/
def resizeRec {α : Type} (array : List (Nest α)) (size : List Nat) (dim : Nat)
    (defaultValue : α) : List (Nest α) :=
  let newLen := size.getD dim 0
  let minLen := min array.length newLen
  if dim < size.length - 1 then
    let kept := (array.take minLen).map fun el =>
      let child := match el with
        | .arr l => l
        | .scalar s => [Nest.scalar s]  -- add a dimension
      Nest.arr (resizeRec child size (dim + 1) defaultValue)
    let fresh := List.replicate (newLen - minLen)
      (Nest.arr (resizeRec [] size (dim + 1) defaultValue))
    kept ++ fresh
  else
    (array.take minLen).map unwrapFirst ++
      List.replicate (newLen - minLen) (Nest.scalar defaultValue)
termination_by size.length - dim

/-- resize of src/utils/array.ts, entry point: rejects an empty size list,
then rejects any size entry that is not a non-negative integer — all before
the recursive phase touches the array. -/
def resizeUtil {α : Type} (array : List (Nest α)) (size : List Num)
    (defaultValue : α) : Except JsErr (List (Nest α)) :=
  if size.length = 0 then .error (.plainError "Resizing to scalar is not supported")
  else if size.any (fun value => ¬(value.den = 1 ∧ 0 ≤ value)) then
    .error (.typeError "Invalid size, must contain positive integers")
  else .ok (resizeRec array (size.map (fun q => q.num.toNat)) 0 defaultValue)

/-- The in-place DenseMatrix.resize: the size metadata is overwritten with
the requested size first, and only then is the validating array resize
called; a thrown error therefore leaves the already-updated metadata
behind. The pair returned is (the call's outcome, the post-call state). -/
def resizeDM {α : Type} (m : DM α) (size : List Num) (defaultValue : α) :
    Except JsErr (DM α) × DM α :=
  let m1 := { m with sizes := size }
  match resizeUtil m1.data size defaultValue with
  | .error e => (.error e, m1)
  | .ok d =>
    let m2 := { m1 with data := d }
    (.ok m2, m2)

/-- The serialized form of §6: kind tag, nested data, shape, optional
datatype tag. -/
structure SerializedDM (α : Type) where
  mathjs : String
  data : List (Nest α)
  size : List Num
  datatype : Option String := none

/-- isSerializedDenseMatrix: the kind tag must be the DenseMatrix literal
and data and size must be arrays (the latter two hold by typing). -/
def isSerializedDenseMatrix {α : Type} (x : SerializedDM α) : Bool :=
  x.mathjs = "DenseMatrix"

/-- DenseMatrix.toJSON: expose the private fields under the tagged form. -/
def toJSONDM {α : Type} (m : DM α) : SerializedDM α :=
  { mathjs := "DenseMatrix", data := m.data, size := m.sizes, datatype := m.datatype }

/-- The serialized-form branch of the constructor: deep-clone the data
(clone of src/utils/object.ts is elementwise on arrays and the identity on
numbers, so on nested numeric arrays it preserves every value), copy the
size list, keep the datatype, then run the scalar probe. -/
def constructSerialized {α : Type} (resolve : α → Arith α) (json : SerializedDM α) :
    Except JsErr (DM α) :=
  match firstLeafL json.data with
  | none => .error (.typeError "Cannot read properties of undefined")
  | some el =>
    .ok { data := json.data, sizes := json.size, scalarArithmetics := resolve el,
          datatype := json.datatype }

/-- DenseMatrix.fromJSON: reject anything that is not a serialized
DenseMatrix, then construct from it. -/
def fromJSONDM {α : Type} (resolve : α → Arith α) (json : SerializedDM α) :
    Except JsErr (DM α) :=
  if ¬isSerializedDenseMatrix json then
    .error (.typeError "The object is not a serialized DenseMatrix.")
  else constructSerialized resolve json

/-- A scalar algebra implementing only the Ring capability (no DivisionRing,
NormedDivisionRing or Real), as declared by a custom scalar type; the
carrier is ℚ for concreteness. The division field models the absent div
property (never reached: dotDiv checks the flag first). -/
def RingOnlyArithmetics : Arith Num where
  divisionRing := false
  normedDivisionRing := false
  real := false
  zero := 0
  add := (· + ·)
  sub := (· - ·)
  neg := (- ·)
  mul := (· * ·)
  div := fun _ _ => 0
  pow := fun x _ => x
  norm := fun x => x
  gt := fun _ _ => false
  lt := fun _ _ => false
  fromNumber := id
  posInfinity := 0

/-! ### Specification-side vocabulary used by the theorem statements -/

/-- The spec's "maximum magnitude among the elements" of a tensor of plain
numbers (zero for an empty element list). -/
def maxMag (v : DM Num) : Num :=
  ((flattenL v.data).map (fun x => |x|)).foldl max 0

/-- The spec's a[i][k]: the scalar at row i, column k of a rank-2 backing
array (zero off the data, unreachable under well-formedness). -/
def mEntry (m : DM Num) (i k : Nat) : Num :=
  match m.data.get? i with
  | some (.arr l) =>
    match l.get? k with
    | some (.scalar v) => v
    | _ => 0
  | _ => 0

/-- The spec's "valid index": one component per dimension, each a
non-negative integer strictly below the corresponding shape entry. -/
def validIdxL : List Int → List Num → Bool
  | [], [] => true
  | i :: is, q :: qs => (decide (0 ≤ i) && decide ((i : Num) < q)) && validIdxL is qs
  | _, _ => false

/-! ### Concrete inputs used by counterexamples and witnesses -/

/-- The matrix [[1,-2],[-3,4]] of the matrix-norm claim. -/
def c1M : DM Num :=
  { data := [.arr [.scalar 1, .scalar (-2)], .arr [.scalar (-3), .scalar 4]],
    sizes := [2, 2], scalarArithmetics := NumberArithmetics }

/-- A ragged nested input: sibling arrays of lengths 2 and 1 at depth 1. -/
def c2ragged : List (Nest Num) :=
  [.arr [.scalar 1, .scalar 2], .arr [.scalar 3]]

/-- The vector [1,2] on which a resize with an invalid size is attempted. -/
def c3vec : DM Num :=
  { data := [.scalar 1, .scalar 2], sizes := [2], scalarArithmetics := NumberArithmetics }

/-- The well-formed 2×2 matrix [[1,2],[3,4]]. -/
def c4a : DM Num :=
  { data := [.arr [.scalar 1, .scalar 2], .arr [.scalar 3, .scalar 4]],
    sizes := [2, 2], scalarArithmetics := NumberArithmetics }

/-- A well-formed rank-2 matrix with two rows and zero columns. -/
def c4b : DM Num :=
  { data := [.arr [], .arr []], sizes := [2, 0], scalarArithmetics := NumberArithmetics }

/-- The 2×2 identity matrix. -/
def c4id : DM Num :=
  { data := [.arr [.scalar 1, .scalar 0], .arr [.scalar 0, .scalar 1]],
    sizes := [2, 2], scalarArithmetics := NumberArithmetics }

/-- A 2×3 matrix of distinct entries for the get/set witness. -/
def c5m : DM Num :=
  { data := [.arr [.scalar 10, .scalar 20, .scalar 30],
             .arr [.scalar 40, .scalar 50, .scalar 60]],
    sizes := [2, 3], scalarArithmetics := NumberArithmetics }

/-- A rank-3 tensor for the serialization round-trip witness. -/
def c6t : DM Num :=
  { data := [.arr [.arr [.scalar 1, .scalar 2]], .arr [.arr [.scalar 3, .scalar 4]]],
    sizes := [2, 1, 2], scalarArithmetics := NumberArithmetics }

/-- A tensor whose resolved scalar algebra implements only Ring. -/
def c7ring : DM Num :=
  { data := [.scalar 1, .scalar 2], sizes := [2], scalarArithmetics := RingOnlyArithmetics }

/-- The vector [3,-4] of the vector-norm claims. -/
def c8v : DM Num :=
  { data := [.scalar 3, .scalar (-4)], sizes := [2], scalarArithmetics := NumberArithmetics }

/-- The one-element vector [5], as the constructor builds it. -/
def c10t : DM Num :=
  { data := [.scalar 5], sizes := [1], scalarArithmetics := NumberArithmetics }

/-! ### Helper lemmas -/

mutual
theorem preprocessN_id {α : Type} : (n : Nest α) → preprocessN n = n
  | .scalar _ => rfl
  | .arr l => by rw [preprocessN, preprocessL_id l]

theorem preprocessL_id {α : Type} : (l : List (Nest α)) → preprocessL l = l
  | [] => rfl
  | x :: xs => by rw [preprocessL, preprocessN_id x, preprocessL_id xs]
end

theorem constructArr_eq {α : Type} (resolve : α → Arith α) (d : List (Nest α)) :
    constructArr resolve d =
      match firstLeafL d with
      | none => .error (.typeError "Cannot read properties of undefined")
      | some el =>
        .ok { data := d, sizes := arraySizeL d, scalarArithmetics := resolve el } := by
  rw [constructArr, preprocessL_id]

/-- The probe succeeding forces every length recorded by arraySize to be
at least one (every array on the first-element chain is nonempty). -/
theorem nestSize_pos_of_firstLeaf {α : Type} :
    (n : Nest α) → (v : α) → firstLeafN n = some v → ∀ q ∈ nestSize n, 1 ≤ q
  | .scalar _, _, _ => by intro q hq; simp [nestSize] at hq
  | .arr [], v, h => by simp [firstLeafN] at h
  | .arr (x :: xs), v, h => by
      intro q hq
      rw [firstLeafN] at h
      rw [nestSize] at hq
      rcases List.mem_cons.mp hq with h1 | h2
      · subst h1
        show (1 : Num) ≤ ((x :: xs).length : Num)
        exact_mod_cast Nat.succ_le_succ (Nat.zero_le xs.length)
      · exact nestSize_pos_of_firstLeaf x v h q h2

/-- Well-formed data whose recorded sizes are all positive has a first
leaf for the constructor probe to find. -/
theorem firstLeaf_of_wf {α : Type} :
    (n : Nest α) → (sz : List Num) → wfN n sz = true → (∀ q ∈ sz, 1 ≤ q) →
      ∃ v, firstLeafN n = some v
  | .scalar v, sz, hwf, _ => by
      cases sz with
      | nil => exact ⟨v, rfl⟩
      | cons q qs => simp [wfN] at hwf
  | .arr l, sz, hwf, hpos => by
      cases sz with
      | nil => simp [wfN] at hwf
      | cons q qs =>
        rw [wfN, Bool.and_eq_true] at hwf
        obtain ⟨hlen, hl⟩ := hwf
        have hq : 1 ≤ q := hpos q (List.mem_cons_self q qs)
        cases l with
        | nil =>
          exfalso
          have : ((0 : Nat) : Num) = q := by simpa using of_decide_eq_true hlen
          rw [← this] at hq
          norm_num at hq
        | cons x xs =>
          rw [wfL, Bool.and_eq_true] at hl
          obtain ⟨hx, _⟩ := hl
          obtain ⟨v, hv⟩ := firstLeaf_of_wf x qs hx (fun q hq => hpos q (List.mem_cons_of_mem _ hq))
          exact ⟨v, by rw [firstLeafN]; exact hv⟩

theorem firstLeafN_mapNest {α β : Type} (f : α → β) :
    (n : Nest α) → (v : α) → firstLeafN n = some v →
      firstLeafN (mapNestN f n) = some (f v)
  | .scalar w, v, h => by
      rw [firstLeafN] at h
      cases h
      rfl
  | .arr [], v, h => by simp [firstLeafN] at h
  | .arr (x :: xs), v, h => by
      rw [firstLeafN] at h
      rw [mapNestN, mapNestL, firstLeafN]
      exact firstLeafN_mapNest f x v h

theorem firstLeafL_mapNest {α β : Type} (f : α → β) (d : List (Nest α)) (v : α)
    (h : firstLeafL d = some v) :
    firstLeafL (mapNestL f d) = some (f v) := by
  cases d with
  | nil => simp [firstLeafL, firstLeafN] at h
  | cons x xs =>
    rw [firstLeafL, firstLeafN] at h
    rw [mapNestL, firstLeafL, firstLeafN]
    exact firstLeafN_mapNest f x v h

/-! ### Claims -/

/-- C10: constructing from nested data whose first leaf chain ends in no
scalar (the empty array, or a first fiber that is empty at some depth)
throws a TypeError at the scalar-algebra probe; consequently every
successfully constructed tensor has a first scalar leaf, and every recorded
shape entry is at least one, so no tensor with a zero-length leading fiber
is ever constructed. -/
theorem c10_probe_rejects_leafless :
    constructNum [] = .error (.typeError "Cannot read properties of undefined") ∧
    constructNum [.arr [], .arr []] = .error (.typeError "Cannot read properties of undefined") ∧
    ∀ (d : List (Nest Num)) (t : DM Num), constructNum d = .ok t →
      (∃ v, firstLeafL t.data = some v) ∧ ∀ q ∈ t.sizes, 1 ≤ q := by
  refine ⟨rfl, rfl, ?_⟩
  intro d t h
  rw [constructNum, constructArr_eq] at h
  cases hfl : firstLeafL d with
  | none => rw [hfl] at h; exact absurd h (by simp)
  | some v =>
    rw [hfl] at h
    have ht : t = { data := d, sizes := arraySizeL d,
                    scalarArithmetics := numberResolve v } := by
      simpa using h.symm
    subst ht
    exact ⟨⟨v, hfl⟩, nestSize_pos_of_firstLeaf (.arr d) v hfl⟩

/-- C10 witness: a one-element vector constructs successfully, its probe
finds the leaf 5, and its single shape entry is at least one. -/
theorem c10_probe_rejects_leafless_witness :
    (∃ v, firstLeafL c10t.data = some v) ∧ ∀ q ∈ c10t.sizes, 1 ≤ q :=
  c10_probe_rejects_leafless.2.2 [Nest.scalar (5 : Num)] c10t rfl

/-- C9: over plain numbers the negative-infinity vector norm scan starts at
zero and replaces the running value only on a strictly smaller magnitude;
magnitudes are never negative, so the scan returns zero for every rank-1
tensor, whatever its elements. -/
theorem c9_norm_ninf_always_zero (v : DM Num)
    (hA : v.scalarArithmetics = NumberArithmetics) (h1 : v.sizes.length = 1) :
    normDM numberResolve v (some .ninfS) = .ok 0 := by
  have hfold : ∀ l : List Num,
      l.foldl (fun r value =>
        let x := |value|
        if decide (x < r) then x else r) 0 = 0 := by
    intro l
    induction l with
    | nil => rfl
    | cons x xs ih =>
      rw [List.foldl_cons]
      have hx : (if decide (|x| < (0 : Num)) then |x| else (0 : Num)) = (0 : Num) := by
        simp [not_lt_of_le (abs_nonneg x)]
      simp only at hx ⊢
      rw [hx]
      exact ih
  rw [normDM, normBranch, if_pos h1, vectorNorm, hA]
  simp [NumberArithmetics]
  simpa using hfold (flattenL v.data)

/-- C9 witness: the all-nonzero vector [3,-4] still has norm given by the
negative-infinity scan equal to 0, not its minimum magnitude 3. -/
theorem c9_norm_ninf_always_zero_witness :
    normDM numberResolve c8v (some .ninfS) = .ok 0 :=
  c9_norm_ninf_always_zero c8v rfl rfl

/-- C1: the claim says norm(1) of [[1,-2],[-3,4]] is 6 and norm(inf) is 7,
but matrixNorm calls col.map(A.norm).reduce(A.add) on the DenseMatrix
objects produced by columns() and rows(); DenseMatrix has no reduce method,
so both norms throw a TypeError on the first loop iteration instead of
returning a value. -/
theorem c1_matrix_norm_reduce_typeerror :
    normDM numberResolve c1M (some (.num 1)) =
      .error (.typeError "col.map(...).reduce is not a function") ∧
    normDM numberResolve c1M (some .infS) =
      .error (.typeError "row.map(...).reduce is not a function") :=
  ⟨rfl, rfl⟩

/-- C2 counterexample: the ragged input [[1,2],[3]] violates the
homogeneity invariant, yet the constructor accepts it, recording the shape
[2,2] read off the first-element chain, which disagrees with the data. -/
theorem c2_constructor_accepts_ragged :
    constructNum c2ragged =
      .ok { data := c2ragged, sizes := [2, 2], scalarArithmetics := NumberArithmetics } ∧
    wfDM { data := c2ragged, sizes := [2, 2],
           scalarArithmetics := NumberArithmetics : DM Num } = false :=
  ⟨rfl, rfl⟩

/-- C2 amended: the constructor never checks homogeneity — any nested-array
input whose first leaf chain ends in a scalar constructs successfully with
the shape computed by arraySize from first elements only; the standalone
validate utility, which the constructor does not call, does report the
dimension mismatch of the ragged example. -/
theorem c2_amended_construction_skips_validation :
    (∀ (d : List (Nest Num)) (v : Num), firstLeafL d = some v →
      constructNum d =
        .ok { data := d, sizes := arraySizeL d, scalarArithmetics := NumberArithmetics }) ∧
    validateArr c2ragged [2, 2] = .error (.dimension 1 2 "!=") := by
  constructor
  · intro d v h
    rw [constructNum, constructArr_eq, h]
    rfl
  · norm_num [validateArr, validateAux, validateChildren, c2ragged]
    rfl

/-- C2 amended witness: the ragged example itself constructs successfully. -/
theorem c2_amended_construction_skips_validation_witness :
    constructNum c2ragged =
      .ok { data := c2ragged, sizes := arraySizeL c2ragged,
            scalarArithmetics := NumberArithmetics } :=
  c2_amended_construction_skips_validation.1 c2ragged 1 rfl

/-- C3 counterexample: resizing the vector [1,2] to the invalid size [-1]
fails in argument validation, yet the failed call leaves the tensor
reporting size [-1] rather than its pre-call size [2] (the metadata is
overwritten before the validating resize runs); the data is untouched. -/
theorem c3_failed_resize_changes_reported_size :
    (resizeDM c3vec [-1] 0).1 =
      .error (.typeError "Invalid size, must contain positive integers") ∧
    (resizeDM c3vec [-1] 0).2.sizes = [-1] ∧
    (resizeDM c3vec [-1] 0).2.data = c3vec.data ∧
    c3vec.sizes = [2] :=
  ⟨rfl, rfl, rfl, rfl⟩

/-- C3 amended: every failing size argument (empty, or containing an entry
that is not a non-negative integer) is rejected before any structural
change, so the failed in-place resize leaves the data in its pre-call
state — but the reported size has already been overwritten with the
requested (invalid) size. -/
theorem c3_amended_failed_resize_preserves_data {α : Type} (m : DM α)
    (size : List Num) (dv : α)
    (h : size = [] ∨ ∃ q ∈ size, ¬(q.den = 1 ∧ 0 ≤ q)) :
    (∃ e, (resizeDM m size dv).1 = .error e) ∧
    (resizeDM m size dv).2.data = m.data ∧
    (resizeDM m size dv).2.sizes = size := by
  have herr : ∃ e, resizeUtil m.data size dv = .error e := by
    rcases h with h | ⟨q, hq, hbad⟩
    · subst h
      exact ⟨.plainError "Resizing to scalar is not supported", rfl⟩
    · have hne : size.length ≠ 0 := by
        intro h0
        rw [List.length_eq_zero] at h0
        subst h0
        simp at hq
      have hany : size.any (fun value => ¬(value.den = 1 ∧ 0 ≤ value)) = true := by
        rw [List.any_eq_true]
        refine ⟨q, hq, ?_⟩
        simp only [decide_eq_true_eq]
        exact hbad
      exact ⟨.typeError "Invalid size, must contain positive integers",
        by rw [resizeUtil, if_neg hne, if_pos hany]⟩
  obtain ⟨e, he⟩ := herr
  have hstep : resizeDM m size dv = (.error e, { m with sizes := size }) := by
    rw [resizeDM]
    have : resizeUtil (DM.data { m with sizes := size }) size dv = .error e := he
    rw [this]
  rw [hstep]
  exact ⟨⟨e, rfl⟩, rfl, rfl⟩

/-- C3 amended witness: the concrete failing call on the vector [1,2]. -/
theorem c3_amended_failed_resize_preserves_data_witness :
    (∃ e, (resizeDM c3vec [-1] 0).1 = .error e) ∧
    (resizeDM c3vec [-1] 0).2.data = c3vec.data ∧
    (resizeDM c3vec [-1] 0).2.sizes = [-1] :=
  c3_amended_failed_resize_preserves_data c3vec [-1] 0
    (Or.inr ⟨-1, by simp, by norm_num⟩)

/-- C7: dotDiv checks the DivisionRing capability flag before touching any
element, so on a tensor whose resolved algebra implements only Ring it
fails with the unsupported-arithmetic condition naming DivisionRing (and,
the model being functional, the receiver is untouched — in the source the
check precedes the only element processing, the map); when the algebra does
implement DivisionRing, the result divides every element by the operand. -/
theorem c7_dotdiv_capability_gate :
    (∀ {α : Type} (resolve : α → Arith α) (a : DM α) (b : α),
      a.scalarArithmetics.divisionRing = false →
      dotDivDM resolve a b = .error (.arithmetic "DivisionRing")) ∧
    (∀ (a : DM Num) (b : Num), a.scalarArithmetics = NumberArithmetics →
      ∀ (v : Num), firstLeafL a.data = some v →
      dotDivDM numberResolve a b =
        .ok { data := mapNestL (fun el => el / b) a.data,
              sizes := arraySizeL (mapNestL (fun el => el / b) a.data),
              scalarArithmetics := NumberArithmetics }) := by
  constructor
  · intro α resolve a b hflag
    rw [dotDivDM]
    simp [hflag]
  · intro a b hA v hleaf
    rw [dotDivDM, hA]
    have hflag : NumberArithmetics.divisionRing = true := rfl
    simp only [hflag, ne_eq, not_true_eq_false, if_false, reduceIte]
    rw [mapDM, constructArr_eq]
    have hleaf2 : firstLeafL (mapNestL (fun el => NumberArithmetics.div el b) a.data) =
        some (NumberArithmetics.div v b) :=
      firstLeafL_mapNest _ a.data v hleaf
    rw [hleaf2]
    rfl

/-- C7 witness: the Ring-only tensor [1,2] is rejected with the DivisionRing
condition, while the numeric tensor [3,-4] is divided elementwise by 2. -/
theorem c7_dotdiv_capability_gate_witness :
    dotDivDM numberResolve c7ring 2 = .error (.arithmetic "DivisionRing") ∧
    dotDivDM numberResolve c8v 2 =
      .ok { data := mapNestL (fun el => el / 2) c8v.data,
            sizes := arraySizeL (mapNestL (fun el => el / 2) c8v.data),
            scalarArithmetics := NumberArithmetics } :=
  ⟨c7_dotdiv_capability_gate.1 numberResolve c7ring 2 rfl,
   c7_dotdiv_capability_gate.2 c8v 2 rfl 3 rfl⟩

/-- C6: serialization round-trip. toJSON exposes the backing data and size
under the tagged form, fromJSON accepts it (the kind tag matches) and the
serialized-form constructor branch clones the data (the identity on nested
numeric arrays) and copies the size, then re-probes the scalar algebra —
for a plain numeric tensor that probe resolves the same built-in algebra,
so the reconstructed tensor equals the original (in particular its shape
and every element agree). -/
theorem c6_json_roundtrip (m : DM Num) (hA : m.scalarArithmetics = NumberArithmetics)
    (hwf : wfDM m = true) (hrank : 1 ≤ m.sizes.length ∧ m.sizes.length ≤ 3)
    (hpos : ∀ q ∈ m.sizes, 1 ≤ q) :
    fromJSONDM numberResolve (toJSONDM m) = .ok m := by
  cases m with
  | mk d s sa dt =>
    obtain ⟨v, hv⟩ := firstLeaf_of_wf (.arr d) s hwf hpos
    have hv2 : firstLeafL (toJSONDM (DM.mk d s sa dt)).data = some v := hv
    rw [fromJSONDM, if_neg (by simp [isSerializedDenseMatrix, toJSONDM]),
      constructSerialized, hv2]
    have hA2 : sa = NumberArithmetics := hA
    subst hA2
    rfl

/-- C6 witness: the round trip at the concrete rank-3 tensor c6t. -/
theorem c6_json_roundtrip_witness :
    fromJSONDM numberResolve (toJSONDM c6t) = .ok c6t :=
  c6_json_roundtrip c6t rfl rfl ⟨by decide, by decide⟩ (by decide)

/-- The maximum scan of vectorNorm coincides with folding max. -/
theorem scan_gt_eq_foldl_max (l : List Num) (a : Num) :
    l.foldl (fun r value =>
      let x := NumberArithmetics.norm value
      if NumberArithmetics.gt x r then x else r) a =
    l.foldl (fun r value => max r |value|) a := by
  have hfun : (fun (r value : Num) =>
      let x := NumberArithmetics.norm value
      if NumberArithmetics.gt x r then x else r) =
      fun (r value : Num) => max r |value| := by
    funext r value
    simp only [NumberArithmetics]
    by_cases h : r < |value|
    · simp [h, max_eq_right h.le]
    · simp [h, max_eq_left (le_of_not_lt h)]
  rw [hfun]

/-- The starting accumulator never exceeds a max fold. -/
theorem le_foldl_max (l : List Num) (a : Num) :
    a ≤ l.foldl (fun r value => max r |value|) a := by
  induction l generalizing a with
  | nil => exact le_refl a
  | cons x xs ih =>
    rw [List.foldl_cons]
    exact le_trans (le_max_left a |x|) (ih (max a |x|))

/-- Every element magnitude is bounded by the max fold. -/
theorem mem_le_foldl_max (l : List Num) (x : Num) :
    ∀ a : Num, x ∈ l → |x| ≤ l.foldl (fun r value => max r |value|) a := by
  induction l with
  | nil => intro a hx; cases hx
  | cons y ys ih =>
    intro a hx
    rw [List.foldl_cons]
    rcases List.mem_cons.mp hx with h | h
    · subst h
      exact le_trans (le_max_right a |x|) (le_foldl_max ys (max a |x|))
    · exact ih (max a |y|) h

/-- The max fold returns its start or the magnitude of some element. -/
theorem foldl_max_attained (l : List Num) (a : Num) :
    l.foldl (fun r value => max r |value|) a = a ∨
    ∃ x ∈ l, l.foldl (fun r value => max r |value|) a = |x| := by
  induction l generalizing a with
  | nil => exact Or.inl rfl
  | cons y ys ih =>
    rw [List.foldl_cons]
    rcases ih (max a |y|) with h | ⟨x, hx, h⟩
    · rw [h]
      rcases le_total |y| a with hy | hy
      · exact Or.inl (max_eq_left hy)
      · exact Or.inr ⟨y, List.mem_cons_self y ys, max_eq_right hy⟩
    · exact Or.inr ⟨x, List.mem_cons_of_mem y hx, h⟩

/-- C8: the positive-infinity vector norm of a rank-1 tensor of plain
numbers requires the Real capability and equals the maximum-magnitude scan
started from zero with strictly-greater replacement: it returns the largest
element magnitude, bounds every magnitude, is attained (or is the zero
start), and is zero for an empty or all-zero vector rather than failing;
on an algebra without the Real capability it fails with the
unsupported-arithmetic condition naming Real. -/
theorem c8_vector_norm_inf :
    (∀ (v : DM Num), v.scalarArithmetics = NumberArithmetics → v.sizes.length = 1 →
      normDM numberResolve v (some .infS) = .ok (maxMag v) ∧
      (∀ x ∈ flattenL v.data, |x| ≤ maxMag v) ∧
      (maxMag v = 0 ∨ ∃ x ∈ flattenL v.data, maxMag v = |x|) ∧
      (flattenL v.data = [] → maxMag v = 0) ∧
      ((∀ x ∈ flattenL v.data, x = 0) → maxMag v = 0)) ∧
    (∀ {α : Type} (resolve : α → Arith α) (v : DM α),
      v.scalarArithmetics.real = false → v.sizes.length = 1 →
      normDM resolve v (some .infS) = .error (.arithmetic "Real")) := by
  have hmax : ∀ v : DM Num,
      maxMag v = (flattenL v.data).foldl (fun r value => max r |value|) 0 := by
    intro v
    rw [maxMag, List.foldl_map]
  constructor
  · intro v hA h1
    refine ⟨?_, ?_, ?_, ?_, ?_⟩
    · rw [normDM, normBranch, if_pos h1, vectorNorm, hA]
      simp only [NumberArithmetics, ne_eq, not_true_eq_false, if_false, reduceIte]
      rw [hmax v]
      exact congrArg Except.ok (scan_gt_eq_foldl_max (flattenL v.data) 0)
    · intro x hx
      rw [hmax v]
      exact mem_le_foldl_max (flattenL v.data) x 0 hx
    · rw [hmax v]
      exact foldl_max_attained (flattenL v.data) 0
    · intro hemp
      rw [hmax v, hemp]
      rfl
    · intro hzero
      rw [hmax v]
      rcases foldl_max_attained (flattenL v.data) 0 with h | ⟨x, hx, h⟩
      · exact h
      · rw [h, hzero x hx]
        exact abs_zero
  · intro α resolve v hreal h1
    rw [normDM, normBranch, if_pos h1, vectorNorm]
    simp [hreal]

/-- C8 witness: the norm of [3,-4] is 4, each magnitude is at most 4, and 4
is attained. -/
theorem c8_vector_norm_inf_witness :
    normDM numberResolve c8v (some .infS) = .ok (maxMag c8v) ∧
    (∀ x ∈ flattenL c8v.data, |x| ≤ maxMag c8v) ∧
    (maxMag c8v = 0 ∨ ∃ x ∈ flattenL c8v.data, maxMag c8v = |x|) :=
  have h := c8_vector_norm_inf.1 c8v rfl rfl
  ⟨h.1, h.2.1, h.2.2.1⟩

theorem toNat_lt_of_cast_lt {i : Int} {n : Nat} (h0 : 0 ≤ i) (h : (i : Num) < (n : Num)) :
    i.toNat < n := by
  have : i < (n : Int) := by exact_mod_cast h
  omega

theorem validIdxL_cons {i : Int} {is : List Int} {q : Num} {qs : List Num} :
    validIdxL (i :: is) (q :: qs) = true ↔
      0 ≤ i ∧ (i : Num) < q ∧ validIdxL is qs = true := by
  simp [validIdxL, and_assoc]

theorem validIdxL_length {idx : List Int} {sz : List Num}
    (h : validIdxL idx sz = true) : idx.length = sz.length := by
  induction idx generalizing sz with
  | nil => cases sz with
    | nil => rfl
    | cons q qs => simp [validIdxL] at h
  | cons i is ih =>
    cases sz with
    | nil => simp [validIdxL] at h
    | cons q qs =>
      obtain ⟨-, -, hrest⟩ := validIdxL_cons.mp h
      simp [List.length_cons, ih hrest]

theorem validateIndex_ok {i : Int} {q : Num} (h0 : 0 ≤ i) (hiq : (i : Num) < q) :
    validateIndex i q = .ok () := by
  rw [validateIndex, if_neg]
  push_neg
  exact ⟨h0, hiq⟩

theorem checkIndices_ok {idx : List Int} {sz : List Num}
    (h : validIdxL idx sz = true) :
    checkIndices (idx.zip sz) = .ok () := by
  induction idx generalizing sz with
  | nil => rfl
  | cons i is ih =>
    cases sz with
    | nil => simp [validIdxL] at h
    | cons q qs =>
      obtain ⟨h0, hiq, hrest⟩ := validIdxL_cons.mp h
      rw [List.zip_cons_cons, checkIndices, validateIndex_ok h0 hiq]
      simpa using ih hrest

theorem wfL_get {α : Type} {l : List (Nest α)} {sz : List Num}
    (h : wfL l sz = true) :
    ∀ {n : Nat} {x : Nest α}, l.get? n = some x → wfN x sz = true := by
  induction l with
  | nil => intro n x hx; simp at hx
  | cons y ys ih =>
    rw [wfL, Bool.and_eq_true] at h
    intro n x hx
    cases n with
    | zero =>
      rw [List.get?_cons_zero] at hx
      cases hx
      exact h.1
    | succ k =>
      rw [List.get?_cons_succ] at hx
      exact ih h.2 hx

theorem setPath_length {α : Type} :
    ∀ (idx : List Int) (d : List (Nest α)) (v : α),
      (setPath d idx v).length = d.length := by
  intro idx
  match idx with
  | [] => intro d v; rw [setPath]
  | [i] =>
    intro d v
    rw [setPath]
    split
    · exact List.length_set d i.toNat _
    · rfl
  | i :: r :: rs =>
    intro d v
    rw [setPath]
    split
    · cases hget : d.get? i.toNat with
      | none => rfl
      | some c =>
        cases c with
        | scalar s => rfl
        | arr l2 => exact List.length_set d i.toNat _
    · rfl

/-- After set at a valid index, get at the same index returns the new
value: the walk of get finds exactly the slot setPath wrote. -/
theorem getWalk_setPath_self {α : Type} :
    ∀ (idx : List Int) (d : List (Nest α)) (sz : List Num) (v : α),
      wfN (.arr d) sz = true → validIdxL idx sz = true →
      getWalk (.arr (setPath d idx v)) idx = .ok v := by
  intro idx
  induction idx with
  | nil =>
    intro d sz v hwf hval
    cases sz with
    | nil => simp [wfN] at hwf
    | cons q qs => simp [validIdxL] at hval
  | cons i rest ih =>
    intro d sz v hwf hval
    cases sz with
    | nil => simp [validIdxL] at hval
    | cons q qs =>
      obtain ⟨h0, hiq, hrest⟩ := validIdxL_cons.mp hval
      rw [wfN, Bool.and_eq_true] at hwf
      obtain ⟨hlen, hL⟩ := hwf
      have hlen' : (d.length : Num) = q := of_decide_eq_true hlen
      have hitn : i.toNat < d.length := toNat_lt_of_cast_lt h0 (hlen' ▸ hiq)
      cases rest with
      | nil =>
        cases qs with
        | cons q2 qs2 => simp [validIdxL] at hrest
        | nil =>
          rw [setPath, if_pos h0, getWalk]
          have hvi : validateIndex i (((d.set i.toNat (.scalar v)).length : Nat) : Num) = .ok () := by
            rw [List.length_set]
            exact validateIndex_ok h0 (hlen' ▸ hiq)
          rw [hvi]
          have hget : (d.set i.toNat (.scalar v)).get? i.toNat = some (.scalar v) := by
            rw [List.get?_set_of_lt _ _ hitn, if_pos rfl]
          rw [hget]
          rfl
      | cons r rs =>
        cases qs with
        | nil => simp [validIdxL] at hrest
        | cons q2 qs2 =>
          have hget0 : d.get? i.toNat = some (d.get ⟨i.toNat, hitn⟩) :=
            List.get?_eq_get hitn
          have hwfc : wfN (d.get ⟨i.toNat, hitn⟩) (q2 :: qs2) = true :=
            wfL_get hL hget0
          cases hc : d.get ⟨i.toNat, hitn⟩ with
          | scalar s => rw [hc] at hwfc; simp [wfN] at hwfc
          | arr l2 =>
            rw [hc] at hget0 hwfc
            rw [setPath, if_pos h0, hget0]
            rw [getWalk]
            have hvi : validateIndex i
                (((d.set i.toNat (.arr (setPath l2 (r :: rs) v))).length : Nat) : Num) = .ok () := by
              rw [List.length_set]
              exact validateIndex_ok h0 (hlen' ▸ hiq)
            rw [hvi]
            have hget : (d.set i.toNat (.arr (setPath l2 (r :: rs) v))).get? i.toNat =
                some (.arr (setPath l2 (r :: rs) v)) := by
              rw [List.get?_set_of_lt _ _ hitn, if_pos rfl]
            rw [hget]
            exact ih l2 (q2 :: qs2) v hwfc hrest

/-- After set at a valid index, get at any other valid index is
unchanged: setPath touches only the slots along its own path. -/
theorem getWalk_setPath_other {α : Type} :
    ∀ (idx jdx : List Int) (d : List (Nest α)) (sz : List Num) (v : α),
      wfN (.arr d) sz = true → validIdxL idx sz = true → validIdxL jdx sz = true →
      jdx ≠ idx →
      getWalk (.arr (setPath d idx v)) jdx = getWalk (.arr d) jdx := by
  intro idx
  induction idx with
  | nil =>
    intro jdx d sz v hwf hvi hvj hne
    cases sz with
    | nil => simp [wfN] at hwf
    | cons q qs => simp [validIdxL] at hvi
  | cons i rest ih =>
    intro jdx d sz v hwf hvi hvj hne
    cases sz with
    | nil => simp [validIdxL] at hvi
    | cons q qs =>
      obtain ⟨h0i, hiq, hresti⟩ := validIdxL_cons.mp hvi
      rw [wfN, Bool.and_eq_true] at hwf
      obtain ⟨hlen, hL⟩ := hwf
      have hlen' : (d.length : Num) = q := of_decide_eq_true hlen
      have hitn : i.toNat < d.length := toNat_lt_of_cast_lt h0i (hlen' ▸ hiq)
      cases jdx with
      | nil => simp [validIdxL] at hvj
      | cons j rest2 =>
        obtain ⟨h0j, hjq, hrestj⟩ := validIdxL_cons.mp hvj
        have hjtn : j.toNat < d.length := toNat_lt_of_cast_lt h0j (hlen' ▸ hjq)
        by_cases hij : j = i
        · subst hij
          cases rest with
          | nil =>
            cases qs with
            | cons q2 qs2 => simp [validIdxL] at hresti
            | nil =>
              cases rest2 with
              | cons r2 rs2 => simp [validIdxL] at hrestj
              | nil => exact absurd rfl hne
          | cons r rs =>
            cases qs with
            | nil => simp [validIdxL] at hresti
            | cons q2 qs2 =>
              cases rest2 with
              | nil => simp [validIdxL] at hrestj
              | cons r2 rs2 =>
                have hget0 : d.get? j.toNat = some (d.get ⟨j.toNat, hjtn⟩) :=
                  List.get?_eq_get hjtn
                have hwfc : wfN (d.get ⟨j.toNat, hjtn⟩) (q2 :: qs2) = true :=
                  wfL_get hL hget0
                cases hc : d.get ⟨j.toNat, hjtn⟩ with
                | scalar s => rw [hc] at hwfc; simp [wfN] at hwfc
                | arr l2 =>
                  rw [hc] at hget0 hwfc
                  rw [setPath, if_pos h0i, hget0]
                  have hne2 : (r2 :: rs2) ≠ (r :: rs) := by
                    intro hcon
                    exact hne (by rw [hcon])
                  have hvset : validateIndex j
                      (((d.set j.toNat (.arr (setPath l2 (r :: rs) v))).length : Nat) : Num) =
                      validateIndex j ((d.length : Nat) : Num) := by
                    rw [List.length_set]
                  have hgset : (d.set j.toNat (.arr (setPath l2 (r :: rs) v))).get? j.toNat =
                      some (.arr (setPath l2 (r :: rs) v)) := by
                    rw [List.get?_set_of_lt _ _ hjtn, if_pos rfl]
                  rw [getWalk, hvset, hgset]
                  conv_rhs => rw [getWalk, hget0]
                  have hvj2 : validateIndex j ((d.length : Nat) : Num) = .ok () :=
                    validateIndex_ok h0j (hlen' ▸ hjq)
                  rw [hvj2]
                  exact ih (r2 :: rs2) l2 (q2 :: qs2) v hwfc hresti hrestj hne2
        · -- different head components: the written slot is not on jdx's path
          have hne3 : i.toNat ≠ j.toNat := by
            intro hcon
            apply hij
            omega
          have hsp : ∃ c, setPath d (i :: rest) v = d.set i.toNat c ∨
              setPath d (i :: rest) v = d := by
            cases rest with
            | nil =>
              exact ⟨.scalar v, by rw [setPath, if_pos h0i]; exact Or.inl rfl⟩
            | cons r rs =>
              cases hg : d.get? i.toNat with
              | none => exact ⟨.scalar v, by rw [setPath, if_pos h0i, hg]; exact Or.inr rfl⟩
              | some c =>
                cases c with
                | scalar s => exact ⟨.scalar v, by rw [setPath, if_pos h0i, hg]; exact Or.inr rfl⟩
                | arr l2 =>
                  exact ⟨.arr (setPath l2 (r :: rs) v),
                    by rw [setPath, if_pos h0i, hg]; exact Or.inl rfl⟩
          obtain ⟨c, hc | hc⟩ := hsp
          · rw [hc]
            have hlenset : ((d.set i.toNat c).length : Num) = (d.length : Num) := by
              rw [List.length_set]
            have hgset : (d.set i.toNat c).get? j.toNat = d.get? j.toNat := by
              rw [List.get?_set_of_lt _ _ hjtn, if_neg hne3]
            rw [getWalk, List.length_set, hgset]
            conv_rhs => rw [getWalk]
          · rw [hc]

/-- C5: at every valid index, set writes the value so that get reads it
back, the shape is unchanged, and get at every other valid index is
unchanged. -/
theorem c5_set_get_roundtrip {α : Type} (m : DM α) (idx : List Int) (v : α)
    (hwf : wfDM m = true) (hidx : validIdxL idx m.sizes = true) :
    ∃ m2, setDM m idx v = .ok m2 ∧ m2.sizes = m.sizes ∧
      getDM m2 idx = .ok v ∧
      ∀ jdx, validIdxL jdx m.sizes = true → jdx ≠ idx →
        getDM m2 jdx = getDM m jdx := by
  have hlen : idx.length = m.sizes.length := validIdxL_length hidx
  have hset : setDM m idx v = .ok { m with data := setPath m.data idx v } := by
    rw [setDM, if_neg]
    omega
  refine ⟨{ m with data := setPath m.data idx v }, hset, rfl, ?_, ?_⟩
  · rw [getDM, if_neg]
    · rw [checkIndices_ok hidx]
      exact getWalk_setPath_self idx m.data m.sizes v hwf hidx
    · show ¬(idx.length ≠ m.sizes.length)
      omega
  · intro jdx hjdx hne
    have hljen : jdx.length = m.sizes.length := validIdxL_length hjdx
    rw [getDM, getDM,
      if_neg (show ¬(jdx.length ≠ m.sizes.length) by omega),
      if_neg (show ¬(jdx.length ≠ m.sizes.length) by omega)]
    rw [checkIndices_ok hjdx]
    exact getWalk_setPath_other idx jdx m.data m.sizes v hwf hidx hjdx hne

/-- C5 witness: on the 2×3 matrix c5m, setting index [1,2] to 99 reads back
99, preserves the shape, and leaves index [0,1] unchanged. -/
theorem c5_set_get_roundtrip_witness :
    ∃ m2, setDM c5m [1, 2] (99 : Num) = .ok m2 ∧ m2.sizes = c5m.sizes ∧
      getDM m2 [1, 2] = .ok 99 ∧
      ∀ jdx, validIdxL jdx c5m.sizes = true → jdx ≠ [1, 2] →
        getDM m2 jdx = getDM c5m jdx :=
  c5_set_get_roundtrip c5m [1, 2] 99 rfl rfl

theorem rowScalars_shape {α : Type} :
    ∀ (l : List (Nest α)) (r : List α), rowScalars l = some r →
      l = r.map Nest.scalar := by
  intro l
  induction l with
  | nil =>
    intro r h
    rw [rowScalars] at h
    cases h
    rfl
  | cons x xs ih =>
    intro r h
    cases x with
    | arr l2 => rw [rowScalars] at h; cases h
    | scalar v =>
      rw [rowScalars] at h
      cases hx : rowScalars xs with
      | none => rw [hx] at h; cases h
      | some rest =>
        rw [hx] at h
        cases h
        rw [List.map_cons]
        rw [← ih rest hx]

theorem rowScalars_of_scalars {α : Type} :
    ∀ (l : List (Nest α)), wfL l [] = true →
      ∃ r, rowScalars l = some r ∧ r.length = l.length := by
  intro l
  induction l with
  | nil => intro h; exact ⟨[], rfl, rfl⟩
  | cons x xs ih =>
    intro h
    rw [wfL, Bool.and_eq_true] at h
    cases x with
    | arr l2 => simp [wfN] at h
    | scalar v =>
      obtain ⟨r, hr, hlen⟩ := ih h.2
      refine ⟨v :: r, ?_, by simp [hlen]⟩
      rw [rowScalars, hr]
      rfl

theorem asRows_shape {α : Type} :
    ∀ (d : List (Nest α)) (rs : List (List α)), asRows d = some rs →
      d = rs.map (fun r => Nest.arr (r.map Nest.scalar)) := by
  intro d
  induction d with
  | nil =>
    intro rs h
    rw [asRows] at h
    cases h
    rfl
  | cons x xs ih =>
    intro rs h
    cases x with
    | scalar v => rw [asRows] at h; cases h
    | arr l =>
      rw [asRows] at h
      cases hrow : rowScalars l with
      | none => rw [hrow] at h; cases h
      | some r =>
        rw [hrow] at h
        cases hrest : asRows xs with
        | none => rw [hrest] at h; cases h
        | some rest =>
          rw [hrest] at h
          cases h
          rw [List.map_cons, ← ih rest hrest, ← rowScalars_shape l r hrow]

theorem asRows_of_wf {α : Type} {C : Nat} :
    ∀ (d : List (Nest α)), wfL d [(C : Num)] = true →
      ∃ rs, asRows d = some rs ∧ rs.length = d.length ∧ ∀ r ∈ rs, r.length = C := by
  intro d
  induction d with
  | nil => intro h; exact ⟨[], rfl, rfl, by simp⟩
  | cons x xs ih =>
    intro h
    rw [wfL, Bool.and_eq_true] at h
    obtain ⟨hx, hxs⟩ := h
    cases x with
    | scalar v => simp [wfN] at hx
    | arr l =>
      rw [wfN, Bool.and_eq_true] at hx
      obtain ⟨hlen, hscal⟩ := hx
      have hlen' : l.length = C := by
        have := of_decide_eq_true hlen
        exact_mod_cast this
      obtain ⟨r, hr, hrlen⟩ := rowScalars_of_scalars l hscal
      obtain ⟨rest, hrest, hrestlen, hrestrows⟩ := ih hxs
      refine ⟨r :: rest, ?_, by simp [hrestlen], ?_⟩
      · rw [asRows, hr, hrest]
        rfl
      · intro s hs
        rcases List.mem_cons.mp hs with h | h
        · subst h
          rw [hrlen, hlen']
        · exact hrestrows s h

theorem mEntry_eq_getD {m : DM Num} {rs : List (List Num)}
    (hd : m.data = rs.map (fun r => Nest.arr (r.map Nest.scalar))) (i k : Nat) :
    mEntry m i k = (rs.getD i []).getD k 0 := by
  rw [mEntry, hd, List.get?_map]
  cases hri : rs.get? i with
  | none =>
    have : rs.getD i [] = [] := by
      rw [List.getD_eq_getElem?_getD, ← List.get?_eq_getElem?, hri]
      rfl
    rw [this]
    rfl
  | some r =>
    have hgd : rs.getD i [] = r := by
      rw [List.getD_eq_getElem?_getD, ← List.get?_eq_getElem?, hri]
      rfl
    rw [hgd]
    simp only [Option.map_some']
    rw [List.get?_map]
    cases hrk : r.get? k with
    | none =>
      have : r.getD k 0 = 0 := by
        rw [List.getD_eq_getElem?_getD, ← List.get?_eq_getElem?, hrk]
        rfl
      rw [this]
      rfl
    | some v =>
      have : r.getD k 0 = v := by
        rw [List.getD_eq_getElem?_getD, ← List.get?_eq_getElem?, hrk]
        rfl
      rw [this]
      rfl

/-- Walking a standard-form rank-2 nested array reads the expected slot. -/
theorem getWalk_standard (rs : List (List Num)) (i j : Nat) (r : List Num)
    (hri : rs.get? i = some r) (hj : j < r.length) :
    getWalk (.arr (rs.map (fun r => Nest.arr (r.map Nest.scalar))))
      [(i : Int), (j : Int)] = .ok (r.getD j 0) := by
  have hi : i < rs.length := List.get?_eq_some.mp hri |>.1 |> fun h => by
    exact (List.get?_eq_some.mp hri).choose
  have hi2 : i < rs.length := by
    by_contra hcon
    rw [List.get?_eq_none.mpr (le_of_not_lt hcon)] at hri
    cases hri
  rw [getWalk]
  have hv1 : validateIndex (i : Int)
      (((rs.map (fun r => Nest.arr (r.map Nest.scalar))).length : Nat) : Num) = .ok () := by
    apply validateIndex_ok (by positivity)
    rw [List.length_map]
    exact_mod_cast hi2
  rw [hv1]
  have hg1 : (rs.map (fun r => Nest.arr (r.map Nest.scalar))).get? (i : Int).toNat =
      some (Nest.arr (r.map Nest.scalar)) := by
    rw [Int.toNat_ofNat, List.get?_map, hri]
    rfl
  rw [hg1]
  have hv : r.get? j = some (r.getD j 0) := by
    rw [List.getD_eq_getElem?_getD, ← List.get?_eq_getElem?]
    cases hrj : r.get? j with
    | none =>
      rw [List.get?_eq_none] at hrj
      omega
    | some v => rfl
  show getWalk (Nest.arr (r.map Nest.scalar)) [(j : Int)] = .ok (r.getD j 0)
  rw [getWalk]
  have hv2 : validateIndex (j : Int) (((r.map Nest.scalar).length : Nat) : Num) = .ok () := by
    apply validateIndex_ok (by positivity)
    rw [List.length_map]
    exact_mod_cast hj
  rw [hv2]
  have hg2 : (r.map Nest.scalar).get? (j : Int).toNat = some (Nest.scalar (r.getD j 0)) := by
    rw [Int.toNat_ofNat, List.get?_map, hv]
    rfl
  rw [hg2]
  rfl

theorem foldl_add_eq_sum (B : Nat) (f : Nat → Num) :
    ∀ a : Num, (List.range B).foldl (fun r k => r + f k) a =
      a + ∑ k ∈ Finset.range B, f k := by
  induction B with
  | zero => intro a; simp
  | succ n ih =>
    intro a
    rw [List.range_succ, List.foldl_append, ih a, Finset.sum_range_succ]
    simp [add_assoc]

/-- The standard-form rank-2 data of a matrix with A nonempty rows of
length C constructs to a well-formed matrix of recorded shape [A, C]. -/
theorem constructArr_standard (rs : List (List Num)) (A C : Nat)
    (hra : rs.length = A) (hrc : ∀ r ∈ rs, r.length = C)
    (hA1 : 1 ≤ A) (hC1 : 1 ≤ C) :
    constructArr numberResolve (rs.map (fun r => Nest.arr (r.map Nest.scalar))) =
      .ok { data := rs.map (fun r => Nest.arr (r.map Nest.scalar)),
            sizes := [(A : Num), (C : Num)],
            scalarArithmetics := NumberArithmetics } ∧
    wfDM { data := rs.map (fun r => Nest.arr (r.map Nest.scalar)),
           sizes := [(A : Num), (C : Num)],
           scalarArithmetics := NumberArithmetics : DM Num } = true := by
  have hwfrow : ∀ (r : List Num), wfL (r.map Nest.scalar) [] = true := by
    intro r
    induction r with
    | nil => rfl
    | cons v vs ih => simpa [wfL, wfN] using ih
  have hwfL : ∀ (l : List (List Num)), (∀ r ∈ l, r.length = C) →
      wfL (l.map (fun r => Nest.arr (r.map Nest.scalar))) [(C : Num)] = true := by
    intro l
    induction l with
    | nil => intro _; rfl
    | cons r lr ih =>
      intro hmem
      rw [List.map_cons, wfL, Bool.and_eq_true]
      constructor
      · rw [wfN, Bool.and_eq_true]
        refine ⟨?_, hwfrow r⟩
        rw [decide_eq_true_eq, List.length_map, hmem r (List.mem_cons_self r lr)]
      · exact ih (fun s hs => hmem s (List.mem_cons_of_mem r hs))
  cases rs with
  | nil =>
    rw [List.length_nil] at hra
    omega
  | cons r0 rest =>
    cases hr0 : r0 with
    | nil =>
      exfalso
      have := hrc r0 (List.mem_cons_self r0 rest)
      rw [hr0, List.length_nil] at this
      omega
    | cons v0 vr =>
      subst hr0
      have hfl : firstLeafL (((v0 :: vr) :: rest).map
          (fun r => Nest.arr (r.map Nest.scalar))) = some v0 := rfl
      have hsz : arraySizeL (((v0 :: vr) :: rest).map
          (fun r => Nest.arr (r.map Nest.scalar))) = [(A : Num), (C : Num)] := by
        rw [arraySizeL]
        rw [List.map_cons]
        rw [nestSize]
        have h1 : ((Nest.arr ((v0 :: vr).map Nest.scalar) ::
            rest.map fun r => Nest.arr (r.map Nest.scalar)).length : Num) = (A : Num) := by
          rw [List.length_cons, List.length_map]
          exact_mod_cast congrArg (Nat.cast : Nat → Num) (by simpa using hra)
        rw [h1]
        rw [List.map_cons, nestSize]
        have h2 : (((Nest.scalar v0 :: vr.map Nest.scalar)).length : Num) = (C : Num) := by
          rw [List.length_cons, List.length_map]
          have := hrc (v0 :: vr) (List.mem_cons_self _ rest)
          exact_mod_cast congrArg (Nat.cast : Nat → Num) (by simpa using this)
        rw [nestSize, h2]
      constructor
      · rw [constructArr_eq, hfl, hsz]
        rfl
      · rw [wfDM, wfN, Bool.and_eq_true]
        constructor
        · rw [decide_eq_true_eq]
          show ((((v0 :: vr) :: rest).map fun r => Nest.arr (r.map Nest.scalar)).length : Num) =
            (A : Num)
          rw [List.length_map]
          exact_mod_cast congrArg (Nat.cast : Nat → Num) hra
        · exact hwfL ((v0 :: vr) :: rest) hrc

/-- A well-formed rank-2 matrix decomposes into its list of scalar rows. -/
theorem wf_rank2_decomp (m : DM Num) (A B : Nat) (hwf : wfDM m = true)
    (hs : m.sizes = [(A : Num), (B : Num)]) :
    ∃ rs, asRows m.data = some rs ∧ rs.length = A ∧ (∀ r ∈ rs, r.length = B) ∧
      m.data = rs.map (fun r => Nest.arr (r.map Nest.scalar)) := by
  rw [wfDM, hs, wfN, Bool.and_eq_true] at hwf
  obtain ⟨hlen, hL⟩ := hwf
  have hlen' : m.data.length = A := by exact_mod_cast of_decide_eq_true hlen
  obtain ⟨rs, hrs, hrslen, hrows⟩ := asRows_of_wf m.data hL
  exact ⟨rs, hrs, by rw [hrslen, hlen'], hrows, asRows_shape _ _ hrs⟩

/-- The dimension-mismatch case of mul: both operands rank 2 and nonempty,
inner dimensions disagreeing. -/
theorem mul_mismatch_aux (a b : DM Num) (A B Bb C : Nat)
    (hwa : wfDM a = true) (hwb : wfDM b = true)
    (hsa : a.sizes = [(A : Num), (B : Num)]) (hsb : b.sizes = [(Bb : Num), (C : Num)])
    (hA1 : 1 ≤ A) (hBb1 : 1 ≤ Bb) (hne : Bb ≠ B) :
    mulDM numberResolve a b = .error (.dimension (Bb : Num) (B : Num) "!=") := by
  obtain ⟨ra, hra, hralen, harows, hadata⟩ := wf_rank2_decomp a A B hwa hsa
  obtain ⟨rb, hrb, hrblen, hbrows, hbdata⟩ := wf_rank2_decomp b Bb C hwb hsb
  rw [mulDM, if_neg (by rw [hsa]; simp), if_neg (by rw [hsb]; simp)]
  split
  case _ ra' rb' heqa heqb =>
    rw [hra] at heqa
    rw [hrb] at heqb
    cases heqa
    cases heqb
    cases ra with
    | nil => rw [List.length_nil] at hralen; omega
    | cons r0 rest_a =>
      cases rb with
      | nil => rw [List.length_nil] at hrblen; omega
      | cons s0 rest_b =>
        rw [List.head?_cons, List.head?_cons]
        split
        case _ r0' s0' heq0 heq1 =>
          cases heq0
          cases heq1
          have hr0 : r0.length = B := harows r0 (List.mem_cons_self r0 rest_a)
          rw [if_pos]
          · rw [hrblen, hr0]
          · rw [hrblen, hr0]
            omega
        case _ hcon => exact (hcon r0 s0 rfl rfl).elim
  case _ hcon =>
    exfalso
    exact hcon _ _ hra hrb

/-- Reading an element of a nested map-over-range standard matrix. -/
theorem getD_map_range {β : Type} [Inhabited β] (n : Nat) (g : Nat → β) (j : Nat)
    (hj : j < n) (dflt : β) : ((List.range n).map g).getD j dflt = g j := by
  have hsome : ((List.range n).map g).get? j = some (g j) := by
    rw [List.get?_map, List.get?_range hj]
    rfl
  rw [List.getD_eq_getElem?_getD, ← List.get?_eq_getElem?, hsome]
  rfl

/-- The successful case of mul on well-formed nonempty numeric matrices. -/
theorem mul_success_aux (a b : DM Num) (A B C : Nat)
    (hAa : a.scalarArithmetics = NumberArithmetics)
    (hwa : wfDM a = true) (hwb : wfDM b = true)
    (hsa : a.sizes = [(A : Num), (B : Num)]) (hsb : b.sizes = [(B : Num), (C : Num)])
    (hA1 : 1 ≤ A) (hB1 : 1 ≤ B) (hC1 : 1 ≤ C) :
    ∃ c, mulDM numberResolve a b = .ok c ∧
      c.sizes = [(A : Num), (C : Num)] ∧ wfDM c = true ∧
      ∀ i j, i < A → j < C →
        getDM c [(i : Int), (j : Int)] =
          .ok (∑ k ∈ Finset.range B, mEntry a i k * mEntry b k j) := by
  obtain ⟨ra, hra, hralen, harows, hadata⟩ := wf_rank2_decomp a A B hwa hsa
  obtain ⟨rb, hrb, hrblen, hbrows, hbdata⟩ := wf_rank2_decomp b B C hwb hsb
  set cmat : List (List Num) := (List.range A).map
    (fun i => (List.range C).map
      (fun j => ∑ k ∈ Finset.range B, mEntry a i k * mEntry b k j)) with hcmatdef
  have hcmatlen : cmat.length = A := by
    rw [hcmatdef, List.length_map, List.length_range]
  have hcmatrows : ∀ r ∈ cmat, r.length = C := by
    intro r hr
    rw [hcmatdef] at hr
    obtain ⟨i, _, hi⟩ := List.mem_map.mp hr
    rw [← hi, List.length_map, List.length_range]
  obtain ⟨hcons, hcwf⟩ := constructArr_standard cmat A C hcmatlen hcmatrows hA1 hC1
  refine ⟨{ data := cmat.map (fun r => Nest.arr (r.map Nest.scalar)),
            sizes := [(A : Num), (C : Num)],
            scalarArithmetics := NumberArithmetics }, ?_, rfl, hcwf, ?_⟩
  · cases ra with
    | nil => rw [List.length_nil] at hralen; omega
    | cons r0 rest_a =>
      cases rb with
      | nil => rw [List.length_nil] at hrblen; omega
      | cons s0 rest_b =>
        have hL1 : (r0 :: rest_a).length = A := hralen
        have hL3 : r0.length = B := harows r0 (List.mem_cons_self r0 rest_a)
        have hL2 : s0.length = C := hbrows s0 (List.mem_cons_self s0 rest_b)
        have hL4 : (s0 :: rest_b).length = B := hrblen
        rw [mulDM, if_neg (by rw [hsa]; simp), if_neg (by rw [hsb]; simp)]
        split
        case _ ra' rb' heqa heqb =>
          rw [hra] at heqa
          rw [hrb] at heqb
          cases heqa
          cases heqb
          rw [List.head?_cons, List.head?_cons]
          split
          case _ r0' s0' heq0 heq1 =>
            cases heq0
            cases heq1
            simp only [hAa, hL1, hL2, hL3, hL4, ne_eq, not_true_eq_false, if_false,
              reduceIte]
            have hcmat : (List.range A).map
                (fun i => (List.range C).map
                  (fun j => (List.range B).foldl
                    (fun r k => NumberArithmetics.add r
                      (NumberArithmetics.mul (((r0 :: rest_a).getD i []).getD k NumberArithmetics.zero)
                        (((s0 :: rest_b).getD k []).getD j NumberArithmetics.zero)))
                    NumberArithmetics.zero)) = cmat := by
              rw [hcmatdef]
              apply List.map_congr_left
              intro i _
              apply List.map_congr_left
              intro j _
              have hplain : (List.range B).foldl
                  (fun r k => NumberArithmetics.add r
                    (NumberArithmetics.mul (((r0 :: rest_a).getD i []).getD k NumberArithmetics.zero)
                      (((s0 :: rest_b).getD k []).getD j NumberArithmetics.zero)))
                  NumberArithmetics.zero =
                  (List.range B).foldl
                  (fun r k => r +
                    (((r0 :: rest_a).getD i []).getD k 0 *
                      ((s0 :: rest_b).getD k []).getD j 0)) 0 := rfl
              rw [hplain, foldl_add_eq_sum, zero_add]
              apply Finset.sum_congr rfl
              intro k _
              rw [mEntry_eq_getD hadata i k, mEntry_eq_getD hbdata k j]
            rw [hcmat]
            exact hcons
          case _ hcon => exact (hcon r0 s0 rfl rfl).elim
        case _ hcon =>
          exfalso
          exact hcon _ _ hra hrb
  · intro i j hi hj
    have hvald : validIdxL [(i : Int), (j : Int)] [(A : Num), (C : Num)] = true := by
      simp only [validIdxL, Bool.and_eq_true, decide_eq_true_eq, and_true]
      exact ⟨⟨by positivity, by exact_mod_cast hi⟩, by positivity, by exact_mod_cast hj⟩
    have hrowi : cmat.get? i = some ((List.range C).map
        (fun j => ∑ k ∈ Finset.range B, mEntry a i k * mEntry b k j)) := by
      rw [hcmatdef, List.get?_map, List.get?_range hi]
      rfl
    have hrlen : j < ((List.range C).map
        (fun j => ∑ k ∈ Finset.range B, mEntry a i k * mEntry b k j)).length := by
      rw [List.length_map, List.length_range]
      exact hj
    rw [getDM, if_neg (by simp)]
    show (checkIndices ([(i : Int), (j : Int)].zip [(A : Num), (C : Num)]) >>= fun _ =>
        getWalk (.arr (cmat.map (fun r => Nest.arr (r.map Nest.scalar))))
          [(i : Int), (j : Int)]) =
      .ok (∑ k ∈ Finset.range B, mEntry a i k * mEntry b k j)
    rw [checkIndices_ok hvald]
    show getWalk (.arr (cmat.map (fun r => Nest.arr (r.map Nest.scalar))))
        [(i : Int), (j : Int)] =
      .ok (∑ k ∈ Finset.range B, mEntry a i k * mEntry b k j)
    rw [getWalk_standard cmat i j _ hrowi hrlen, getD_map_range C _ j hj 0]

/-- C4 counterexample: with a = [[1,2],[3,4]] (2×2) and b the well-formed
rank-2 matrix of two empty rows (2×0), both operands are rank 2 and the
inner dimensions agree (2 = 2), so the claim requires a 2×0 result; but the
code finishes its loops with data [[],[]] and the result constructor's
scalar probe then dereferences undefined, throwing a TypeError instead of
returning a tensor. -/
theorem c4_mul_zero_column_typeerror :
    c4a.sizes = [2, 2] ∧ c4b.sizes = [2, 0] ∧ wfDM c4a = true ∧ wfDM c4b = true ∧
    mulDM numberResolve c4a c4b =
      .error (.typeError "Cannot read properties of undefined") :=
  ⟨rfl, rfl, rfl, rfl, rfl⟩

/-- C4 amended: mul fails with a dimension mismatch when either operand is
not rank 2 or (for nonempty operands) when the operand's row count differs
from the receiver's column count; when both operands are well-formed rank-2
matrices with at least one row and one column each and the inner dimensions
agree, it returns a new well-formed tensor of shape (receiver rows ×
operand columns) whose [i][j] entry is the dot product Σ_k a[i][k]*b[k][j]
computed with the receiver's resolved algebra — the zero-row and
zero-column cases instead throw a TypeError from the first-row read or the
result probe. -/
theorem c4_amended_mul :
    (∀ {α : Type} (resolve : α → Arith α) (a b : DM α), a.sizes.length ≠ 2 →
      mulDM resolve a b = .error (.dimension (a.sizes.length : Num) 2 "!=")) ∧
    (∀ {α : Type} (resolve : α → Arith α) (a b : DM α), a.sizes.length = 2 →
      b.sizes.length ≠ 2 →
      mulDM resolve a b = .error (.dimension (b.sizes.length : Num) 2 "!=")) ∧
    (∀ (a b : DM Num) (A B Bb C : Nat), wfDM a = true → wfDM b = true →
      a.sizes = [(A : Num), (B : Num)] → b.sizes = [(Bb : Num), (C : Num)] →
      1 ≤ A → 1 ≤ Bb → Bb ≠ B →
      mulDM numberResolve a b = .error (.dimension (Bb : Num) (B : Num) "!=")) ∧
    (∀ (a b : DM Num) (A B C : Nat), a.scalarArithmetics = NumberArithmetics →
      wfDM a = true → wfDM b = true →
      a.sizes = [(A : Num), (B : Num)] → b.sizes = [(B : Num), (C : Num)] →
      1 ≤ A → 1 ≤ B → 1 ≤ C →
      ∃ c, mulDM numberResolve a b = .ok c ∧ c.sizes = [(A : Num), (C : Num)] ∧
        wfDM c = true ∧ ∀ i j, i < A → j < C →
          getDM c [(i : Int), (j : Int)] =
            .ok (∑ k ∈ Finset.range B, mEntry a i k * mEntry b k j)) := by
  refine ⟨?_, ?_, ?_, ?_⟩
  · intro α resolve a b h
    rw [mulDM, if_pos h]
  · intro α resolve a b h1 h2
    rw [mulDM, if_neg (by simp [h1]), if_pos h2]
  · exact fun a b A B Bb C hwa hwb hsa hsb hA1 hBb1 hne =>
      mul_mismatch_aux a b A B Bb C hwa hwb hsa hsb hA1 hBb1 hne
  · exact fun a b A B C hAa hwa hwb hsa hsb hA1 hB1 hC1 =>
      mul_success_aux a b A B C hAa hwa hwb hsa hsb hA1 hB1 hC1

/-- C4 amended witness: multiplying [[1,2],[3,4]] by the 2×2 identity
yields a well-formed 2×2 tensor whose entries are the dot-product sums, and
a rank-1 receiver is rejected with a dimension mismatch. -/
theorem c4_amended_mul_witness :
    (∃ c, mulDM numberResolve c4a c4id = .ok c ∧ c.sizes = [((2 : Nat) : Num), ((2 : Nat) : Num)] ∧
      wfDM c = true ∧ ∀ (i j : Nat), i < 2 → j < 2 →
        getDM c [(i : Int), (j : Int)] =
          .ok (∑ k ∈ Finset.range 2, mEntry c4a i k * mEntry c4id k j)) ∧
    mulDM numberResolve c8v c4a = .error (.dimension (c8v.sizes.length : Num) 2 "!=") :=
  ⟨c4_amended_mul.2.2.2 c4a c4id 2 2 2 rfl rfl rfl (by norm_num [c4a]) (by norm_num [c4id])
      (by norm_num) (by norm_num) (by norm_num),
   c4_amended_mul.1 numberResolve c8v c4a (by norm_num [c8v])⟩

end DMjs
